import Mathlib

/-!
# Verification of `tp_blockchain.py`

A shallow embedding of the Python source `tp_blockchain.py`: a minimal
proof-of-work blockchain (`Block`, `Blockchain`), a Merkle tree over block
digests (`MerkleTree`), and the majority-root selection used by the test
harness.  Python strings are embedded as lists of UTF-8 bytes (`Str`), and
`hashlib.sha256(...).hexdigest()` is embedded as a full executable SHA-256
over byte lists, so that concrete chains can be evaluated by the kernel.
The unbounded mining loop is embedded with explicit fuel, returning
`Option Block`; all claims about mining are conditioned on termination,
i.e. on the fuelled loop returning `some`.
-/

/-- Python strings are modelled as their UTF-8 byte sequences. -/
abbrev Str := List Nat

/-! ## SHA-256 over byte lists

Executable embedding of `hashlib.sha256(s.encode()).hexdigest()`:
`sha256hex` maps the UTF-8 bytes of `s` to the 64 ASCII bytes of the
lowercase hex digest. -/

/-- Truncate to a 32-bit word. -/
def w32 (n : Nat) : Nat := n % 4294967296

/-- 32-bit modular addition. -/
def add32 (a b : Nat) : Nat := (a + b) % 4294967296

/-- 32-bit right rotation (argument assumed `< 2^32`). -/
def rotr32 (x n : Nat) : Nat := w32 ((x >>> n) ||| (x <<< (32 - n)))

/-- 32-bit bitwise complement. -/
def bnot32 (x : Nat) : Nat := x ^^^ 4294967295

def bigSigma0 (x : Nat) : Nat := (rotr32 x 2) ^^^ (rotr32 x 13) ^^^ (rotr32 x 22)

def bigSigma1 (x : Nat) : Nat := (rotr32 x 6) ^^^ (rotr32 x 11) ^^^ (rotr32 x 25)

def smallSigma0 (x : Nat) : Nat := (rotr32 x 7) ^^^ (rotr32 x 18) ^^^ (x >>> 3)

def smallSigma1 (x : Nat) : Nat := (rotr32 x 17) ^^^ (rotr32 x 19) ^^^ (x >>> 10)

def chFn (x y z : Nat) : Nat := (x &&& y) ^^^ (bnot32 x &&& z)

def majFn (x y z : Nat) : Nat := (x &&& y) ^^^ (x &&& z) ^^^ (y &&& z)

/-- The 64 SHA-256 round constants. -/
def sha256K : List Nat :=
  [1116352408, 1899447441, 3049323471, 3921009573, 961987163, 1508970993,
   2453635748, 2870763221, 3624381080, 310598401, 607225278, 1426881987,
   1925078388, 2162078206, 2614888103, 3248222580, 3835390401, 4022224774,
   264347078, 604807628, 770255983, 1249150122, 1555081692, 1996064986,
   2554220882, 2821834349, 2952996808, 3210313671, 3336571891, 3584528711,
   113926993, 338241895, 666307205, 773529912, 1294757372, 1396182291,
   1695183700, 1986661051, 2177026350, 2456956037, 2730485921, 2820302411,
   3259730800, 3345764771, 3516065817, 3600352804, 4094571909, 275423344,
   430227734, 506948616, 659060556, 883997877, 958139571, 1322822218,
   1537002063, 1747873779, 1955562222, 2024104815, 2227730452, 2361852424,
   2428436474, 2756734187, 3204031479, 3329325298]

/-- The SHA-256 initial hash value. -/
def sha256H0 : List Nat :=
  [1779033703, 3144134277, 1013904242, 2773480762,
   1359893119, 2600822924, 528734635, 1541459225]

/-- Extend the message schedule: `acc` holds the words produced so far in
reverse order; each step appends `σ1 (W (i-2)) + W (i-7) + σ0 (W (i-15)) + W (i-16)`. -/
def scheduleExt : Nat → List Nat → List Nat
  | 0, acc => acc
  | fuel + 1, acc =>
      let t := add32 (add32 (smallSigma1 (acc.getD 1 0)) (acc.getD 6 0))
                     (add32 (smallSigma0 (acc.getD 14 0)) (acc.getD 15 0))
      scheduleExt fuel (t :: acc)

/-- One SHA-256 compression round on the working state `[a,b,c,d,e,f,g,h]`,
given the pair (round constant, schedule word). -/
def compressStep (st : List Nat) (kw : Nat × Nat) : List Nat :=
  match st with
  | [a, b, c, d, e, f, g, h] =>
      let t1 := add32 (add32 (add32 h (bigSigma1 e)) (add32 (chFn e f g) kw.1)) kw.2
      let t2 := add32 (bigSigma0 a) (majFn a b c)
      [add32 t1 t2, a, b, c, add32 d t1, e, f, g]
  | st => st

/-- Compress one 16-word message block into the running hash value. -/
def compressBlock (hs ws : List Nat) : List Nat :=
  let w := (scheduleExt 48 ws.reverse).reverse
  let fin := (sha256K.zip w).foldl compressStep hs
  (hs.zip fin).map (fun p => add32 p.1 p.2)

/-- Fold the compression over the padded message, 16 words at a time. -/
def sha256Blocks : List Nat → List Nat → List Nat
  | hs, w0 :: w1 :: w2 :: w3 :: w4 :: w5 :: w6 :: w7 ::
        w8 :: w9 :: w10 :: w11 :: w12 :: w13 :: w14 :: w15 :: rest =>
      sha256Blocks
        (compressBlock hs [w0, w1, w2, w3, w4, w5, w6, w7,
                           w8, w9, w10, w11, w12, w13, w14, w15]) rest
  | hs, _ => hs

/-- The 8-byte big-endian encoding of `n`. -/
def be64 (n : Nat) : List Nat :=
  [(n >>> 56) % 256, (n >>> 48) % 256, (n >>> 40) % 256, (n >>> 32) % 256,
   (n >>> 24) % 256, (n >>> 16) % 256, (n >>> 8) % 256, n % 256]

/-- SHA-256 padding: append `0x80`, zero bytes up to 56 mod 64, then the
bit length as 8 big-endian bytes. -/
def sha256pad (msg : List Nat) : List Nat :=
  msg ++ [128] ++ List.replicate ((119 - msg.length % 64) % 64) 0 ++ be64 (8 * msg.length)

/-- Group bytes into 32-bit big-endian words. -/
def bytesToWords : List Nat → List Nat
  | b0 :: b1 :: b2 :: b3 :: rest => (((b0 * 256 + b1) * 256 + b2) * 256 + b3) :: bytesToWords rest
  | _ => []

/-- Split 32-bit words into big-endian bytes. -/
def wordsToBytes : List Nat → List Nat
  | [] => []
  | w :: rest => (w >>> 24) % 256 :: (w >>> 16) % 256 :: (w >>> 8) % 256 :: w % 256 :: wordsToBytes rest

/-- ASCII code of the lowercase hex digit for `n < 16`. -/
def hexDigit (n : Nat) : Nat := if n < 10 then 48 + n else 87 + n

/-- Lowercase hex encoding of a byte list, as ASCII codes. -/
def bytesToHex : List Nat → List Nat
  | [] => []
  | b :: rest => hexDigit (b / 16) :: hexDigit (b % 16) :: bytesToHex rest

/-- SHA-256 of a byte list, returned as the 64 ASCII bytes of the lowercase
hex digest — the embedding of `hashlib.sha256(msg).hexdigest()`. -/
def sha256hex (msg : List Nat) : Str :=
  bytesToHex (wordsToBytes (sha256Blocks sha256H0 (bytesToWords (sha256pad msg))))

/-- UTF-8 encoding of a Unicode code point. -/
def utf8EncodeChar (c : Nat) : List Nat :=
  if c < 128 then [c]
  else if c < 2048 then [192 + c / 64, 128 + c % 64]
  else if c < 65536 then [224 + c / 4096, 128 + (c / 64) % 64, 128 + c % 64]
  else [240 + c / 262144, 128 + (c / 4096) % 64, 128 + (c / 64) % 64, 128 + c % 64]

/-- UTF-8 bytes of a Lean string literal (embedding of Python `s.encode()`). -/
def strBytes (s : String) : Str :=
  (s.data.map Char.toNat).foldr (fun c acc => utf8EncodeChar c ++ acc) []

/-- Decimal digits (ASCII) of `n`, with explicit fuel. -/
def natDigits : Nat → Nat → List Nat
  | 0, _ => []
  | fuel + 1, n => if n < 10 then [48 + n] else natDigits fuel (n / 10) ++ [48 + n % 10]

/-- Decimal string of a natural number, as ASCII bytes — the embedding of
Python `f"{n}"` for the non-negative integers used as timestamps and nonces. -/
def natStr (n : Nat) : Str := natDigits (n + 1) n

/-! ## The `Block` class -/

/-- Embedding of `Block.calculate_hash` as a function of the four hashed
fields: `sha256(f"{timestamp}{data}{previous_hash}{nonce}").hexdigest()`. -/
def hashFields (timestamp : Nat) (data previous_hash : Str) (nonce : Nat) : Str :=
  sha256hex (natStr timestamp ++ data ++ previous_hash ++ natStr nonce)

/-- A Python `Block` object: timestamp, payload, predecessor digest, nonce,
and the cached digest field. -/
structure Block where
  timestamp : Nat
  data : Str
  previous_hash : Str
  nonce : Nat
  hash : Str
deriving DecidableEq, Repr

/-- `Block.calculate_hash` as a method on the current fields. -/
def Block.calculate_hash (b : Block) : Str :=
  hashFields b.timestamp b.data b.previous_hash b.nonce

/-- Embedding of `Block.__init__(data, previous_hash, timestamp)` with an
explicit timestamp (the Python default `time.time()` is outside the model;
every claim uses explicit numeric timestamps): nonce starts at 0 and the
digest field is computed once. -/
def Block.make (data previous_hash : Str) (timestamp : Nat) : Block :=
  { timestamp := timestamp, data := data, previous_hash := previous_hash, nonce := 0,
    hash := hashFields timestamp data previous_hash 0 }

/-- Python `s.startswith('0' * d)`: the first `d` bytes of `s` are ASCII `'0'`. -/
def hasLeadingZeros (s : Str) (d : Nat) : Bool := s.take d == List.replicate d 48

/-- Embedding of `Block.mine_block(difficulty)` with explicit fuel: the
Python `while` loop checks the current digest, and on failure increments
the nonce and recomputes the digest.  `none` means the loop did not finish
within `fuel` iterations. -/
def mineAux (fuel : Nat) (b : Block) (difficulty : Nat) : Option Block :=
  if hasLeadingZeros b.hash difficulty then some b
  else
    match fuel with
    | 0 => none
    | fuel + 1 =>
        mineAux fuel
          { b with nonce := b.nonce + 1,
                   hash := hashFields b.timestamp b.data b.previous_hash (b.nonce + 1) }
          difficulty

/-- Embedding of `Block.update_data(new_data)`: replace the payload, reset
the nonce to 0, and recompute the digest field — no mining. -/
def Block.update_data (b : Block) (new_data : Str) : Block :=
  { b with data := new_data, nonce := 0,
           hash := hashFields b.timestamp new_data b.previous_hash 0 }

/-! ## The `Blockchain` class -/

/-- A Python `Blockchain` object: the difficulty and the block list. -/
structure Blockchain where
  difficulty : Nat
  chain : List Block
deriving DecidableEq, Repr

/-- Embedding of `Blockchain.create_genesis_block(timestamp)`:
`Block("Genesis Block", "0", timestamp)` mined at the chain's difficulty. -/
def create_genesis_block (difficulty timestamp fuel : Nat) : Option Block :=
  mineAux fuel (Block.make (strBytes "Genesis Block") (strBytes "0") timestamp) difficulty

/-- Embedding of `Blockchain.__init__(difficulty, genesis_timestamp)`:
the chain starts as the singleton mined genesis block. -/
def Blockchain.init (difficulty genesis_timestamp fuel : Nat) : Option Blockchain :=
  (create_genesis_block difficulty genesis_timestamp fuel).map
    (fun g => { difficulty := difficulty, chain := [g] })

/-- Embedding of `Blockchain.add_block(data, timestamp)`: a new block linked
to the current tail's digest, mined at the chain's difficulty, appended. -/
def Blockchain.add_block (bc : Blockchain) (data : Str) (timestamp fuel : Nat) :
    Option Blockchain :=
  bc.chain.getLast?.bind fun last =>
    (mineAux fuel (Block.make data last.hash timestamp) bc.difficulty).map
      (fun nb => { bc with chain := bc.chain ++ [nb] })

/-- The three per-index checks of `Blockchain.is_chain_valid`, in source
order: digest integrity, link integrity, difficulty compliance.  All three
failures at index `i` report the same index, so their conjunction decides
whether the scan moves past `i`. -/
def validAt (difficulty : Nat) (prev current : Block) : Bool :=
  current.hash == current.calculate_hash &&
  current.previous_hash == prev.hash &&
  hasLeadingZeros current.hash difficulty

/-- The scan of `is_chain_valid`: the element checked together with its
predecessor `prev` carries index `i`; returns the first failing index. -/
def is_chain_valid_aux (difficulty i : Nat) : List Block → Option Nat
  | prev :: current :: rest =>
      if validAt difficulty prev current then
        is_chain_valid_aux difficulty (i + 1) (current :: rest)
      else some i
  | _ => none

/-- Embedding of `Blockchain.is_chain_valid()`: `(True, None)` when every
index from 1 passes the three checks, else `(False, i)` at the first
failing index. -/
def Blockchain.is_chain_valid (bc : Blockchain) : Bool × Option Nat :=
  match is_chain_valid_aux bc.difficulty 1 bc.chain with
  | none => (true, none)
  | some i => (false, some i)

/-- Fallback block for out-of-range indexing (never reached in the claims). -/
def dummyBlock : Block := ⟨0, [], [], 0, []⟩

/-- The tampering operation the test harness performs on a chain:
`bc.chain[k].update_data(p)`, i.e. block `k` replaced by its
`update_data` image, all other blocks untouched. -/
def Blockchain.tamper (bc : Blockchain) (k : Nat) (p : Str) : Blockchain :=
  { bc with chain := bc.chain.set k ((bc.chain.getD k dummyBlock).update_data p) }

/-- Build a chain the way the harness does: the constructor (which mines the
genesis block) followed by a sequence of `add_block` calls, each with its
payload, timestamp, and mining fuel. -/
def addAll : Blockchain → List (Str × Nat × Nat) → Option Blockchain
  | bc, [] => some bc
  | bc, (data, ts, fuel) :: rest =>
      (bc.add_block data ts fuel).bind (fun bc2 => addAll bc2 rest)

/-- `Blockchain(difficulty, genesis_timestamp)` followed by `add_block` calls. -/
def buildChain (difficulty genesis_timestamp genesisFuel : Nat)
    (adds : List (Str × Nat × Nat)) : Option Blockchain :=
  (Blockchain.init difficulty genesis_timestamp genesisFuel).bind
    (fun bc => addAll bc adds)

/-! ## The `MerkleTree` class -/

/-- One reduction pass of `build_tree`'s inner `for` loop: hash the
concatenation of each adjacent pair (the level is assumed even). -/
def pairHash : List Str → List Str
  | a :: b :: rest => sha256hex (a ++ b) :: pairHash rest
  | _ => []

/-- The odd-level duplication: `if len(current_level) % 2 != 0:
current_level.append(current_level[-1])`.  Because the Python list object
is the one already stored in `self.tree`, the duplication is visible in the
stored level. -/
def dupIfOdd (l : List Str) : List Str :=
  if l.length % 2 ≠ 0 then l ++ [l.getLastD []] else l

/-- The `while len(current_level) > 1` loop of `build_tree`, with explicit
fuel, one unit per iteration: each level that enters an iteration is stored
in its (possibly duplicated) form, the final single-entry level as is.
`l.length` units of fuel always suffice because each iteration at least
halves the level, and `buildLevelsF_irrel` below shows every sufficient
fuel gives the same level list, so `buildLevels` is the loop's result. -/
def buildLevelsF : Nat → List Str → List (List Str)
  | 0, l => [l]
  | fuel + 1, l =>
      if l.length ≤ 1 then [l]
      else dupIfOdd l :: buildLevelsF fuel (pairHash (dupIfOdd l))

/-- The level list `self.tree` produced by `build_tree` on non-empty leaves. -/
def buildLevels (l : List Str) : List (List Str) := buildLevelsF l.length l

/-- A Python `MerkleTree` object: the copied leaves and the level list. -/
structure MerkleTree where
  leaves : List Str
  tree : List (List Str)
deriving DecidableEq, Repr

/-- Embedding of `MerkleTree.__init__(leaves)`: `build_tree` runs only when
the leaf list is non-empty, otherwise `tree` stays `[]`. -/
def MerkleTree.make (leaves : List Str) : MerkleTree :=
  { leaves := leaves, tree := if leaves.isEmpty then [] else buildLevels leaves }

/-- Embedding of `MerkleTree.compute_merkle_root()`: `''` when the tree is
empty, else the single entry `tree[-1][0]` of the last level. -/
def MerkleTree.compute_merkle_root (mt : MerkleTree) : Str :=
  match mt.tree.getLast? with
  | none => []
  | some lvl => lvl.headD []

/-! ## Majority-root selection

The test harness selects the majority Merkle root with
`max(set(roots), key=roots.count)`.  Python's `max` keeps the first item of
the iterated collection whose key is maximal — but the collection iterated
is `set(roots)`, whose element order is hash-based and unspecified.  The
embedding therefore takes that enumeration of the distinct roots as an
explicit argument `setOrder`: any duplicate-free list with the same members
as `roots` is a possible behaviour of the Python expression. -/

/-- The left fold of Python `max` with a key function: the current best is
replaced only when a strictly greater key appears, so the first maximal
element of the iteration wins. -/
def pickMax (roots : List Str) (acc : Str) (rest : List Str) : Str :=
  rest.foldl (fun best y => if roots.count y > roots.count best then y else best) acc

/-- `max(setOrder, key=roots.count)`: the first element of `setOrder` with
the maximal occurrence count in `roots` (Python `max` keeps the earlier
item on ties); `none` on an empty enumeration (Python raises). -/
def majority_root (roots setOrder : List Str) : Option Str :=
  match setOrder with
  | [] => none
  | x :: rest => some (pickMax roots x rest)

/-- `setOrder` is a possible iteration order of `set(roots)`. -/
def IsSetOrder (roots setOrder : List Str) : Prop :=
  setOrder.Nodup ∧ (∀ x ∈ setOrder, x ∈ roots) ∧ (∀ x ∈ roots, x ∈ setOrder)

/-- Every block after the first links to its predecessor's digest field. -/
def WellLinked : List Block → Prop
  | b :: c :: rest => c.previous_hash = b.hash ∧ WellLinked (c :: rest)
  | _ => True

/-- The invariant maintained by the constructor and `add_block`. -/
def chainOk (bc : Blockchain) : Prop :=
  bc.chain ≠ [] ∧ WellLinked bc.chain ∧
  ∀ b ∈ bc.chain, b.hash = b.calculate_hash ∧ hasLeadingZeros b.hash bc.difficulty = true

/-- A difficulty-1 chain — the mined genesis block plus one mined block —
with pre-computed nonces and digests, used to instantiate the chain
theorems on concrete inputs. -/
def gBlockW : Block :=
  { timestamp := 1000, data := strBytes "Genesis Block", previous_hash := strBytes "0",
    nonce := 14,
    hash := strBytes "0bf82cfa114b148595a23a18c16e1c63d020d7e77c0486479937a3cd3a7a6776" }

def b1W : Block :=
  { timestamp := 1001, data := strBytes "Bloc 1", previous_hash := gBlockW.hash,
    nonce := 3,
    hash := strBytes "08644d64c804cbcedae714c422954999419456b6d6cf8127f8c91156bac379da" }

def bcW1 : Blockchain := { difficulty := 1, chain := [gBlockW, b1W] }

/-- `gBlockW` one mining step earlier: nonce 13, digest recomputed. -/
def mineW : Block :=
  { timestamp := 1000, data := strBytes "Genesis Block", previous_hash := strBytes "0",
    nonce := 13,
    hash := hashFields 1000 (strBytes "Genesis Block") (strBytes "0") 13 }

/-- `gBlockW` with its payload overwritten and the digest field left stale
(the transient state the source's corruption test creates before it
recomputes the digest). -/
def staleW : Block := { gBlockW with data := strBytes "Corruption malveillante" }

/-- The difficulty-0 chain built by the constructor plus one `add_block`. -/
def bcW0 : Blockchain :=
  (buildChain 0 1000 0 [(strBytes "Bloc 1", 1001, 0)]).getD (Blockchain.mk 0 [])

/-! ## Theorems -/

/-- SHA-256 sanity anchor: the well-known digest of `"abc"`. -/
example :
    sha256hex (strBytes "abc") =
      strBytes "ba7816bf8f01cfea414140de5dae2223b00361a396177a9cb410ff61f20015ad" := by
  decide

/-! ## Length lemmas for the Merkle level construction -/

theorem pairHash_length : ∀ l : List Str, (pairHash l).length = l.length / 2
  | [] => by simp [pairHash]
  | [_] => by simp [pairHash]
  | _ :: _ :: rest => by
      simp [pairHash, pairHash_length rest]
      omega

theorem dupIfOdd_length (l : List Str) :
    (dupIfOdd l).length = l.length + l.length % 2 := by
  unfold dupIfOdd
  split
  · rename_i h
    simp only [List.length_append, List.length_singleton]
    omega
  · rename_i h
    omega

theorem buildLevelsF_irrel : ∀ (fuel fuel2 : Nat) (l : List Str),
    l.length ≤ fuel → l.length ≤ fuel2 → buildLevelsF fuel l = buildLevelsF fuel2 l := by
  intro fuel
  induction fuel with
  | zero =>
      intro fuel2 l h h2
      have hnil : l = [] := List.length_eq_zero.mp (Nat.le_zero.mp h)
      subst hnil
      cases fuel2 with
      | zero => rfl
      | succ f2 => simp [buildLevelsF]
  | succ f ih =>
      intro fuel2 l h h2
      by_cases hl : l.length ≤ 1
      · cases fuel2 with
        | zero =>
            have hnil : l = [] := List.length_eq_zero.mp (Nat.le_zero.mp h2)
            subst hnil
            simp [buildLevelsF]
        | succ f2 => simp [buildLevelsF, hl]
      · cases fuel2 with
        | zero => omega
        | succ f2 =>
            simp only [buildLevelsF, if_neg hl]
            have hm : (pairHash (dupIfOdd l)).length = (l.length + l.length % 2) / 2 := by
              rw [pairHash_length, dupIfOdd_length]
            congr 1
            apply ih
            · omega
            · omega

/-! ## Helper lemmas about mining -/

theorem mineAux_of_zeros {fuel : Nat} {b : Block} {difficulty : Nat}
    (h : hasLeadingZeros b.hash difficulty = true) :
    mineAux fuel b difficulty = some b := by
  cases fuel <;> simp [mineAux, h]

theorem mineAux_zeros {difficulty : Nat} {b' : Block} :
    ∀ (fuel : Nat) (b : Block), mineAux fuel b difficulty = some b' →
      hasLeadingZeros b'.hash difficulty = true := by
  intro fuel
  induction fuel with
  | zero =>
      intro b h
      rw [mineAux] at h
      split at h
      · cases h; assumption
      · cases h
  | succ fuel ih =>
      intro b h
      rw [mineAux] at h
      split at h
      · cases h; assumption
      · apply ih
        exact h

theorem mineAux_frame {difficulty : Nat} {b' : Block} :
    ∀ (fuel : Nat) (b : Block), mineAux fuel b difficulty = some b' →
      b'.timestamp = b.timestamp ∧ b'.data = b.data ∧ b'.previous_hash = b.previous_hash := by
  intro fuel
  induction fuel with
  | zero =>
      intro b h
      rw [mineAux] at h
      split at h
      · cases h; exact ⟨rfl, rfl, rfl⟩
      · cases h
  | succ fuel ih =>
      intro b h
      rw [mineAux] at h
      split at h
      · cases h; exact ⟨rfl, rfl, rfl⟩
      · have hf := ih _ h
        exact hf

theorem mineAux_integrity {difficulty : Nat} {b' : Block} :
    ∀ (fuel : Nat) (b : Block), b.hash = b.calculate_hash →
      mineAux fuel b difficulty = some b' → b'.hash = b'.calculate_hash := by
  intro fuel
  induction fuel with
  | zero =>
      intro b hint h
      rw [mineAux] at h
      split at h
      · cases h; assumption
      · cases h
  | succ fuel ih =>
      intro b hint h
      rw [mineAux] at h
      split at h
      · cases h; assumption
      · exact ih _ (by rfl) h

theorem zeros_mono {s : Str} {d d2 : Nat} (hd : d2 ≤ d)
    (h : hasLeadingZeros s d = true) : hasLeadingZeros s d2 = true := by
  simp only [hasLeadingZeros, beq_iff_eq] at h ⊢
  have : s.take d2 = (s.take d).take d2 := by
    rw [List.take_take, Nat.min_eq_left hd]
  rw [this, h, List.take_replicate, Nat.min_eq_left hd]

/-! ## Helper lemmas about chain validity -/

theorem wellLinked_append {l : List Block} {last nb : Block}
    (hl : WellLinked l) (hlast : l.getLast? = some last)
    (hprev : nb.previous_hash = last.hash) : WellLinked (l ++ [nb]) := by
  induction l with
  | nil => cases hlast
  | cons a t ih =>
      cases t with
      | nil =>
          cases hlast
          exact ⟨hprev, trivial⟩
      | cons b r =>
          obtain ⟨h1, h2⟩ := hl
          exact ⟨h1, ih h2 hlast⟩

theorem wellLinked_getD {l : List Block} (hl : WellLinked l) :
    ∀ i, i + 1 < l.length →
      (l.getD (i + 1) dummyBlock).previous_hash = (l.getD i dummyBlock).hash := by
  induction l with
  | nil => intro i hi; simp at hi
  | cons a t ih =>
      intro i hi
      cases t with
      | nil => simp at hi
      | cons b r =>
          obtain ⟨h1, h2⟩ := hl
          cases i with
          | zero => simpa using h1
          | succ j =>
              have := ih h2 j (by simpa using hi)
              simpa using this

theorem aux_none_of_ok {d : Nat} {l : List Block}
    (hl : WellLinked l)
    (hok : ∀ b ∈ l, b.hash = b.calculate_hash ∧ hasLeadingZeros b.hash d = true) :
    ∀ i, is_chain_valid_aux d i l = none := by
  induction l with
  | nil => intro i; rfl
  | cons a t ih =>
      intro i
      cases t with
      | nil => rfl
      | cons b r =>
          obtain ⟨h1, h2⟩ := hl
          have hb := hok b (by simp)
          have hz := hb.2
          rw [hb.1] at hz
          have hv : validAt d a b = true := by
            simp [validAt, h1, hb.1, hz]
          simp only [is_chain_valid_aux, hv, if_true]
          exact ih h2 (fun x hx => hok x (by simp [hx])) (i + 1)

theorem init_ok {d ts fuel : Nat} {bc : Blockchain}
    (h : Blockchain.init d ts fuel = some bc) : bc.difficulty = d ∧ chainOk bc := by
  unfold Blockchain.init create_genesis_block at h
  rw [Option.map_eq_some'] at h
  obtain ⟨g, hg, hbc⟩ := h
  subst hbc
  refine ⟨rfl, by simp, trivial, ?_⟩
  intro b hb
  rw [List.mem_singleton] at hb
  subst hb
  exact ⟨mineAux_integrity _ _ rfl hg, mineAux_zeros _ _ hg⟩

theorem add_ok {bc : Blockchain} {data : Str} {ts fuel : Nat} {bc2 : Blockchain}
    (hok : chainOk bc) (h : bc.add_block data ts fuel = some bc2) :
    bc2.difficulty = bc.difficulty ∧ chainOk bc2 := by
  obtain ⟨hne, hl, hblocks⟩ := hok
  unfold Blockchain.add_block at h
  rw [Option.bind_eq_some] at h
  obtain ⟨last, hlast, h⟩ := h
  rw [Option.map_eq_some'] at h
  obtain ⟨nb, hm, hbc⟩ := h
  subst hbc
  have hframe := mineAux_frame _ _ hm
  refine ⟨rfl, by simp, ?_, ?_⟩
  · exact wellLinked_append hl hlast hframe.2.2
  · intro b hb
    rw [List.mem_append, List.mem_singleton] at hb
    cases hb with
    | inl hb => exact hblocks b hb
    | inr hb =>
        subst hb
        exact ⟨mineAux_integrity _ _ rfl hm, mineAux_zeros _ _ hm⟩

theorem addAll_ok {adds : List (Str × Nat × Nat)} :
    ∀ {bc bc2 : Blockchain}, chainOk bc → addAll bc adds = some bc2 →
      bc2.difficulty = bc.difficulty ∧ chainOk bc2 := by
  induction adds with
  | nil =>
      intro bc bc2 hok h
      cases h
      exact ⟨rfl, hok⟩
  | cons a rest ih =>
      intro bc bc2 hok h
      obtain ⟨data, ts, fuel⟩ := a
      unfold addAll at h
      rw [Option.bind_eq_some] at h
      obtain ⟨bcm, hstep, h⟩ := h
      have hs := add_ok hok hstep
      have hr := ih hs.2 h
      exact ⟨hr.1.trans hs.1, hr.2⟩

theorem buildChain_ok {d ts gf : Nat} {adds : List (Str × Nat × Nat)} {bc : Blockchain}
    (h : buildChain d ts gf adds = some bc) : bc.difficulty = d ∧ chainOk bc := by
  unfold buildChain at h
  rw [Option.bind_eq_some] at h
  obtain ⟨bc0, hg, h⟩ := h
  have h0 := init_ok hg
  have hr := addAll_ok h0.2 h
  exact ⟨hr.1.trans h0.1, hr.2⟩

theorem valid_of_ok {bc : Blockchain} (hok : chainOk bc) :
    bc.is_chain_valid = (true, none) := by
  obtain ⟨hne, hl, hblocks⟩ := hok
  unfold Blockchain.is_chain_valid
  rw [aux_none_of_ok hl hblocks 1]

/-! ## Helper lemmas about tampering -/

theorem aux_tamper {d : Nat} {p : Str} :
    ∀ (k : Nat) (l : List Block) (i : Nat),
      is_chain_valid_aux d i l = none → 1 ≤ k → k < l.length →
      hasLeadingZeros ((l.getD k dummyBlock).update_data p).hash d = false →
      is_chain_valid_aux d i (l.set k ((l.getD k dummyBlock).update_data p))
        = some (i + (k - 1)) := by
  intro k
  induction k with
  | zero => intro l i hnone h1 hk hz; omega
  | succ k ih =>
      intro l i hnone h1 hk hz
      cases l with
      | nil => simp at hk
      | cons x t =>
          cases t with
          | nil => simp at hk
          | cons y r =>
              have hsplit :
                  (if validAt d x y then is_chain_valid_aux d (i + 1) (y :: r) else some i)
                    = none := hnone
              have hv : validAt d x y = true := by
                by_contra hvf
                rw [Bool.not_eq_true] at hvf
                rw [hvf] at hsplit
                simp at hsplit
              have hrest : is_chain_valid_aux d (i + 1) (y :: r) = none := by
                rw [hv] at hsplit
                simpa using hsplit
              cases k with
              | zero =>
                  have hgd : (x :: y :: r).getD 1 dummyBlock = y := rfl
                  rw [hgd] at hz ⊢
                  have hvt : validAt d x (y.update_data p) = false := by
                    simp only [validAt, hz, Bool.and_false]
                  show (if validAt d x (y.update_data p)
                        then is_chain_valid_aux d (i + 1) ((y.update_data p) :: r)
                        else some i) = some (i + (1 - 1))
                  rw [hvt]
                  simp
              | succ j =>
                  have hgd : (x :: y :: r).getD (j + 2) dummyBlock
                      = (y :: r).getD (j + 1) dummyBlock := rfl
                  rw [hgd] at hz ⊢
                  have hrec := ih (y :: r) (i + 1) hrest (by omega) (by simpa using hk) hz
                  show (if validAt d x y
                        then is_chain_valid_aux d (i + 1)
                          ((y :: r).set (j + 1) (((y :: r).getD (j + 1) dummyBlock).update_data p))
                        else some i) = some (i + (j + 2 - 1))
                  rw [hv]
                  simp only [if_true]
                  rw [hrec]
                  congr 1
                  omega

/-! ## Unfolding lemmas for the Merkle level construction -/

theorem buildLevels_base {l : List Str} (h : l.length ≤ 1) : buildLevels l = [l] := by
  cases l with
  | nil => rfl
  | cons a t =>
      cases t with
      | nil => rfl
      | cons b r => simp at h

theorem buildLevels_step {l : List Str} (h : ¬ l.length ≤ 1) :
    buildLevels l = dupIfOdd l :: buildLevels (pairHash (dupIfOdd l)) := by
  have h2 : 2 ≤ l.length := by omega
  unfold buildLevels
  rcases Nat.exists_eq_add_of_le h2 with ⟨k, hk⟩
  rw [hk, show 2 + k = (1 + k) + 1 from by omega]
  simp only [buildLevelsF, if_neg h]
  congr 1
  apply buildLevelsF_irrel
  · rw [pairHash_length, dupIfOdd_length]
    omega
  · exact le_refl _

theorem buildLevels_dup_last {l : List Str} (h1 : 1 < l.length) (hodd : l.length % 2 = 1) :
    buildLevels l = buildLevels (l ++ [l.getLastD []]) := by
  have hd : dupIfOdd l = l ++ [l.getLastD []] := by simp [dupIfOdd, hodd]
  have hlen2 : (l ++ [l.getLastD []]).length = l.length + 1 := by simp
  have hL2 : (l.length + 1) % 2 = 0 := by omega
  have hd2 : dupIfOdd (l ++ [l.getLastD []]) = l ++ [l.getLastD []] := by
    simp [dupIfOdd, hL2]
  rw [buildLevels_step (by omega), hd,
      buildLevels_step (show ¬ (l ++ [l.getLastD []]).length ≤ 1 by omega),
      hd2]

theorem compute_root_concrete {mt : MerkleTree} {c : List Str} {pre : List (List Str)}
    (h : mt.tree = pre ++ [c]) : mt.compute_merkle_root = c.headD [] := by
  unfold MerkleTree.compute_merkle_root
  rw [h, List.getLast?_append]
  rfl

/-! ## Helper lemmas about the majority selection -/

theorem pickMax_spec (roots : List Str) :
    ∀ (rest : List Str) (acc : Str),
      (pickMax roots acc rest = acc ∨ pickMax roots acc rest ∈ rest)
      ∧ roots.count acc ≤ roots.count (pickMax roots acc rest)
      ∧ ∀ y ∈ rest, roots.count y ≤ roots.count (pickMax roots acc rest) := by
  intro rest
  induction rest with
  | nil => intro acc; simp [pickMax]
  | cons y t ih =>
      intro acc
      have hunf : pickMax roots acc (y :: t)
          = pickMax roots (if roots.count y > roots.count acc then y else acc) t := by
        simp [pickMax, List.foldl]
      by_cases hc : roots.count y > roots.count acc
      · rw [hunf, if_pos hc]
        obtain ⟨hmem, hacc, hall⟩ := ih y
        refine ⟨?_, ?_, ?_⟩
        · cases hmem with
          | inl he => exact Or.inr (by rw [he]; exact List.mem_cons_self y t)
          | inr hm => exact Or.inr (List.mem_cons_of_mem y hm)
        · exact le_trans (le_of_lt hc) hacc
        · intro z hz
          rcases List.mem_cons.mp hz with hzy | hzt
          · rw [hzy]; exact hacc
          · exact hall z hzt
      · rw [hunf, if_neg hc]
        obtain ⟨hmem, hacc, hall⟩ := ih acc
        refine ⟨?_, hacc, ?_⟩
        · cases hmem with
          | inl he => exact Or.inl he
          | inr hm => exact Or.inr (List.mem_cons_of_mem y hm)
        · intro z hz
          rcases List.mem_cons.mp hz with hzy | hzt
          · rw [hzy]; exact le_trans (Nat.le_of_not_lt hc) hacc
          · exact hall z hzt

/-- Helper: an `is_chain_valid_aux` scan that stops at index `j` makes
`is_chain_valid()` report `(False, j)`. -/
theorem is_chain_valid_of_aux_some {bc : Blockchain} {j : Nat}
    (h : is_chain_valid_aux bc.difficulty 1 bc.chain = some j) :
    bc.is_chain_valid = (false, some j) := by
  unfold Blockchain.is_chain_valid
  rw [h]

/-! ## The claims -/

/-- C2: every chain built solely by the constructor (which mines the
genesis block) followed by `add_block` calls, each mining call
terminating, satisfies: every block links to its predecessor's digest,
every stored digest equals a fresh recomputation, every digest has at
least `difficulty` leading `'0'` hex characters, and `is_chain_valid()`
returns `(True, None)`. -/
theorem chain_build_invariants (d gts gf : Nat) (adds : List (Str × Nat × Nat))
    (bc : Blockchain) (h : buildChain d gts gf adds = some bc) :
    (∀ i, 1 ≤ i → i < bc.chain.length →
        (bc.chain.getD i dummyBlock).previous_hash = (bc.chain.getD (i - 1) dummyBlock).hash)
    ∧ (∀ b ∈ bc.chain, b.hash = b.calculate_hash)
    ∧ (∀ b ∈ bc.chain, hasLeadingZeros b.hash d = true)
    ∧ bc.is_chain_valid = (true, none) := by
  obtain ⟨hdiff, hok⟩ := buildChain_ok h
  obtain ⟨hne, hl, hblocks⟩ := hok
  refine ⟨?_, fun b hb => (hblocks b hb).1, fun b hb => ?_, valid_of_ok ⟨hne, hl, hblocks⟩⟩
  · intro i h1 hlen
    have h2 := wellLinked_getD hl (i - 1) (by omega)
    rw [Nat.sub_add_cancel h1] at h2
    exact h2
  · have hz := (hblocks b hb).2
    rwa [hdiff] at hz

set_option maxRecDepth 40000 in
/-- Witness for C2: the difficulty-0 chain of a mined genesis block and one
`add_block`, evaluated concretely. -/
theorem chain_build_invariants_witness :
    buildChain 0 1000 0 [(strBytes "Bloc 1", 1001, 0)] = some bcW0
      ∧ bcW0.is_chain_valid = (true, none) :=
  ⟨by decide,
   (chain_build_invariants 0 1000 0 [(strBytes "Bloc 1", 1001, 0)] bcW0 (by decide)).2.2.2⟩

/-- C1 (amended): tampering an interior block `k` of a valid chain via
`update_data` is reported at exactly index `k` PROVIDED the recomputed
digest of the tampered block does not itself satisfy the difficulty
predicate (when it does — in particular always at difficulty 0 — the
scan passes index `k` and the tampered index is not the one reported). -/
theorem tamper_first_invalid_index (bc : Blockchain) (k : Nat) (p : Str)
    (hvalid : bc.is_chain_valid = (true, none))
    (h1 : 1 ≤ k) (hk : k < bc.chain.length)
    (hz : hasLeadingZeros ((bc.chain.getD k dummyBlock).update_data p).hash
        bc.difficulty = false) :
    (bc.tamper k p).is_chain_valid = (false, some k) := by
  have haux : is_chain_valid_aux bc.difficulty 1 bc.chain = none := by
    unfold Blockchain.is_chain_valid at hvalid
    cases hx : is_chain_valid_aux bc.difficulty 1 bc.chain with
    | none => rfl
    | some j => rw [hx] at hvalid; simp at hvalid
  have ht := aux_tamper k bc.chain 1 haux h1 hk hz
  have hres : (bc.tamper k p).is_chain_valid = (false, some (1 + (k - 1))) :=
    is_chain_valid_of_aux_some ht
  rw [show 1 + (k - 1) = k from by omega] at hres
  exact hres

set_option maxRecDepth 40000 in
/-- Witness for C1 (amended): tampering block 1 of a concrete valid
difficulty-1 chain with a payload whose recomputed digest has no leading
zero is reported at index 1. -/
theorem tamper_first_invalid_index_witness :
    bcW1.is_chain_valid = (true, none) ∧ 1 ≤ 1 ∧ 1 < bcW1.chain.length ∧
    hasLeadingZeros ((bcW1.chain.getD 1 dummyBlock).update_data (strBytes "tampered")).hash
      bcW1.difficulty = false ∧
    (bcW1.tamper 1 (strBytes "tampered")).is_chain_valid = (false, some 1) :=
  ⟨by decide, by decide, by decide, by decide,
   tamper_first_invalid_index bcW1 1 (strBytes "tampered")
     (by decide) (by decide) (by decide) (by decide)⟩

set_option maxRecDepth 40000 in
/-- Counterexample to C1 as stated: tampering the last block (an interior
index `k = length - 1 = 1`) of the same valid difficulty-1 chain with the
payload `"lucky57"`, whose recomputed digest happens to start with `'0'`,
leaves the chain fully valid — `is_chain_valid()` returns `(True, None)`,
not `(False, 1)`. -/
theorem tamper_first_invalid_index_counterexample :
    bcW1.is_chain_valid = (true, none) ∧ 1 ≤ 1 ∧ 1 < bcW1.chain.length ∧
    (bcW1.tamper 1 (strBytes "lucky57")).is_chain_valid = (true, none) ∧
    (bcW1.tamper 1 (strBytes "lucky57")).is_chain_valid ≠ (false, some 1) := by
  refine ⟨by decide, by decide, by decide, by decide, ?_⟩
  intro hcontra
  have : (true, (none : Option Nat)) = (false, some 1) := by
    rw [show ((true, none) : Bool × Option Nat)
          = (bcW1.tamper 1 (strBytes "lucky57")).is_chain_valid from by decide]
    exact hcontra
  simp at this

/-- C3 (amended): for every replica root list and every duplicate-free
enumeration of its distinct values (any possible iteration order of
Python's `set(roots)`), `max(set(roots), key=roots.count)` returns a root
of maximal occurrence count.  Which tied root wins depends on the set's
iteration order, not on scan order over the replica list. -/
theorem majority_root_is_max (roots setOrder : List Str) (r : Str)
    (hso : IsSetOrder roots setOrder)
    (hr : majority_root roots setOrder = some r) :
    r ∈ roots ∧ ∀ x ∈ roots, roots.count x ≤ roots.count r := by
  obtain ⟨hnd, hsub, hsup⟩ := hso
  cases setOrder with
  | nil => cases hr
  | cons x rest =>
      have hrr : r = pickMax roots x rest := (Option.some.inj hr).symm
      obtain ⟨hmem, hacc, hall⟩ := pickMax_spec roots rest x
      subst hrr
      constructor
      · cases hmem with
        | inl he => rw [he]; exact hsub x (List.mem_cons_self x rest)
        | inr hm => exact hsub _ (List.mem_cons_of_mem x hm)
      · intro z hz
        have hzo := hsup z hz
        rcases List.mem_cons.mp hzo with hzx | hzr
        · rw [hzx]; exact hacc
        · exact hall z hzr

/-- Witness for C3 (amended): on the concrete root list `[a, a, b]` with
the enumeration `[a, b]`, the selection returns `a`, which has maximal
count. -/
theorem majority_root_is_max_witness :
    IsSetOrder [[97], [97], [98]] [[97], [98]]
    ∧ majority_root [[97], [97], [98]] [[97], [98]] = some [97]
    ∧ [97] ∈ [[97], [97], [98]] :=
  ⟨⟨by decide, by decide, by decide⟩, by decide,
   (majority_root_is_max [[97], [97], [98]] [[97], [98]] [97]
     ⟨by decide, by decide, by decide⟩ (by decide)).1⟩

/-- Counterexample to C3's tie-break as stated: for `roots = [a, b]` with
`a ≠ b` both of count 1, the enumeration `[b, a]` is a legitimate
iteration order of `set(roots)` (duplicate-free, same members), and the
selection then returns `b` — not the earliest-encountered maximal root in
scan order over the replica list, which is `a` (as the scan-order
enumeration `[a, b]` shows). -/
theorem majority_root_tie_counterexample :
    IsSetOrder [[97], [98]] [[98], [97]]
    ∧ majority_root [[97], [98]] [[98], [97]] = some [98]
    ∧ majority_root [[97], [98]] [[97], [98]] = some [97]
    ∧ ([98] : Str) ≠ [97] :=
  ⟨⟨by decide, by decide, by decide⟩, by decide, by decide, by decide⟩

/-- C4: the Merkle root of four leaf digests is the hash of the
concatenation of the two pair hashes. -/
theorem merkle_root_four (h0 h1 h2 h3 : Str) :
    (MerkleTree.make [h0, h1, h2, h3]).compute_merkle_root
      = sha256hex (sha256hex (h0 ++ h1) ++ sha256hex (h2 ++ h3)) := by
  have e1 : buildLevels [h0, h1, h2, h3]
      = [h0, h1, h2, h3] :: buildLevels [sha256hex (h0 ++ h1), sha256hex (h2 ++ h3)] := by
    rw [buildLevels_step (by simp)]
    simp [dupIfOdd, pairHash]
  have e2 : buildLevels [sha256hex (h0 ++ h1), sha256hex (h2 ++ h3)]
      = [sha256hex (h0 ++ h1), sha256hex (h2 ++ h3)]
          :: buildLevels [sha256hex (sha256hex (h0 ++ h1) ++ sha256hex (h2 ++ h3))] := by
    rw [buildLevels_step (by simp)]
    simp [dupIfOdd, pairHash]
  have e3 : buildLevels [sha256hex (sha256hex (h0 ++ h1) ++ sha256hex (h2 ++ h3))]
      = [[sha256hex (sha256hex (h0 ++ h1) ++ sha256hex (h2 ++ h3))]] :=
    buildLevels_base (by simp)
  have ht : (MerkleTree.make [h0, h1, h2, h3]).tree
      = [[h0, h1, h2, h3], [sha256hex (h0 ++ h1), sha256hex (h2 ++ h3)]]
          ++ [[sha256hex (sha256hex (h0 ++ h1) ++ sha256hex (h2 ++ h3))]] := by
    show buildLevels [h0, h1, h2, h3] = _
    rw [e1, e2, e3]
    rfl
  rw [compute_root_concrete ht]
  rfl

/-- C5: a three-leaf tree has the same root as the four-leaf tree with the
last leaf repeated, and in general an odd level longer than one is reduced
exactly as its duplicate-last extension — the whole level lists coincide. -/
theorem merkle_odd_dup :
    (∀ h0 h1 h2 : Str,
        (MerkleTree.make [h0, h1, h2]).compute_merkle_root
          = (MerkleTree.make [h0, h1, h2, h2]).compute_merkle_root)
    ∧ ∀ l : List Str, 1 < l.length → l.length % 2 = 1 →
        buildLevels l = buildLevels (l ++ [l.getLastD []]) := by
  refine ⟨?_, fun l ha hb => buildLevels_dup_last ha hb⟩
  intro h0 h1 h2
  have htr : (MerkleTree.make [h0, h1, h2]).tree
      = (MerkleTree.make [h0, h1, h2, h2]).tree := by
    show buildLevels [h0, h1, h2] = buildLevels [h0, h1, h2, h2]
    exact @buildLevels_dup_last [h0, h1, h2] (by simp) (by simp)
  unfold MerkleTree.compute_merkle_root
  rw [htr]

/-- Witness for C5: the general duplicate-last rule applied to a concrete
three-entry level. -/
theorem merkle_odd_dup_witness :
    1 < ([[97], [98], [99]] : List Str).length
    ∧ ([[97], [98], [99]] : List Str).length % 2 = 1
    ∧ buildLevels [[97], [98], [99]]
        = buildLevels ([[97], [98], [99]] ++ [([[97], [98], [99]] : List Str).getLastD []]) :=
  ⟨by decide, by decide, merkle_odd_dup.2 [[97], [98], [99]] (by decide) (by decide)⟩

/-- C6 (amended): the stored level 0 of the tree equals the leaf list when
it has at most one entry or an even number of entries; when it is odd and
longer than one, the stored level 0 is the leaf list with its last entry
appended once, because the in-place duplication of `build_tree` mutates
the list object already stored in `self.tree`. -/
theorem merkle_level0_stored (l : List Str) :
    (MerkleTree.make l).tree.headD [] = if l.length ≤ 1 then l else dupIfOdd l := by
  cases l with
  | nil => rfl
  | cons a t =>
      by_cases hl : (a :: t).length ≤ 1
      · rw [if_pos hl]
        show (buildLevels (a :: t)).headD [] = a :: t
        rw [buildLevels_base hl]
        rfl
      · rw [if_neg hl]
        show (buildLevels (a :: t)).headD [] = dupIfOdd (a :: t)
        rw [buildLevels_step hl]
        rfl

/-- Counterexample to C6 as stated: with the three leaves `[a, b, c]` the
stored level 0 is `[a, b, c, c]` — same entries extended by the duplicate,
not the leaf sequence that was passed in. -/
theorem merkle_level0_stored_counterexample :
    (MerkleTree.make [[97], [98], [99]]).tree.headD [] ≠ [[97], [98], [99]] := by
  decide

/-- C7 (amended): for a block whose stored digest equals the recomputation
from its fields (the invariant every construction and mutation of the
source maintains), a terminating `mine_block(D)` leaves the digest with at
least `D` leading `'0'` characters and equal to a fresh recomputation, and
mutates only the nonce and digest — timestamp, payload and
`previous_hash` are unchanged. -/
theorem mine_block_post (b : Block) (difficulty fuel : Nat) (b' : Block)
    (hint : b.hash = b.calculate_hash)
    (h : mineAux fuel b difficulty = some b') :
    hasLeadingZeros b'.hash difficulty = true
    ∧ b'.hash = b'.calculate_hash
    ∧ b'.timestamp = b.timestamp ∧ b'.data = b.data ∧ b'.previous_hash = b.previous_hash :=
  ⟨mineAux_zeros _ _ h, mineAux_integrity _ _ hint h,
   (mineAux_frame _ _ h).1, (mineAux_frame _ _ h).2.1, (mineAux_frame _ _ h).2.2⟩

set_option maxRecDepth 40000 in
set_option maxHeartbeats 1600000 in
/-- Witness for C7 (amended): mining the nonce-13 predecessor of the
concrete genesis block at difficulty 1 terminates in one step and yields a
digest with a leading `'0'`. -/
theorem mine_block_post_witness :
    mineW.hash = mineW.calculate_hash ∧ mineAux 1 mineW 1 = some gBlockW ∧
    hasLeadingZeros gBlockW.hash 1 = true :=
  ⟨by decide, by decide, (mine_block_post mineW 1 1 gBlockW (by decide) (by decide)).1⟩

set_option maxRecDepth 40000 in
/-- Counterexample to C7 as stated: on a block whose stored digest already
has a leading `'0'` but no longer matches its fields (payload overwritten,
digest stale), `mine_block(1)` terminates immediately and returns the
block unchanged, so the digest does not equal a fresh recomputation. -/
theorem mine_block_post_counterexample :
    mineAux 0 staleW 1 = some staleW ∧ staleW.hash ≠ staleW.calculate_hash := by
  decide

/-- C8: `update_data(p)` replaces the payload by `p`, resets the nonce to
0, and stores the digest recomputed from `(timestamp, p, previous_hash,
0)` with no mining; timestamp and `previous_hash` are unchanged — and, the
embedding being a pure function on one block, no other state is touched. -/
theorem update_data_spec (b : Block) (p : Str) :
    (b.update_data p).data = p ∧ (b.update_data p).nonce = 0
    ∧ (b.update_data p).hash = hashFields b.timestamp p b.previous_hash 0
    ∧ (b.update_data p).timestamp = b.timestamp
    ∧ (b.update_data p).previous_hash = b.previous_hash :=
  ⟨rfl, rfl, rfl, rfl, rfl⟩

/-- C9: a `MerkleTree` built from zero leaves performs no reduction — the
level list stays empty — and the root accessor returns the empty string
(the empty byte sequence) rather than failing. -/
theorem merkle_empty_ok :
    (MerkleTree.make []).tree = [] ∧ (MerkleTree.make []).compute_merkle_root = [] :=
  ⟨rfl, rfl⟩

/-- C10: a block whose digest already has `D` leading `'0'` characters is
returned unchanged by `mine_block(D)` under any fuel (the loop exits at
once); hence mining twice at one difficulty, or re-mining at any
`D2 ≤ D` after a successful mine at `D`, equals mining once. -/
theorem mine_idempotent :
    (∀ (b : Block) (d fuel : Nat), hasLeadingZeros b.hash d = true →
        mineAux fuel b d = some b)
    ∧ (∀ (b b' : Block) (d fuel fuel2 : Nat),
        mineAux fuel b d = some b' → mineAux fuel2 b' d = some b')
    ∧ (∀ (b b' : Block) (d d2 fuel fuel2 : Nat), d2 ≤ d →
        mineAux fuel b d = some b' → mineAux fuel2 b' d2 = some b') :=
  ⟨fun _ _ _ h => mineAux_of_zeros h,
   fun _ _ _ _ _ h => mineAux_of_zeros (mineAux_zeros _ _ h),
   fun _ _ _ _ _ _ hd h => mineAux_of_zeros (zeros_mono hd (mineAux_zeros _ _ h))⟩

/-- Witness for C10: the concrete mined genesis block, whose digest starts
with `'0'`, is a fixed point of mining at difficulty 1 under several
fuels. -/
theorem mine_idempotent_witness :
    hasLeadingZeros gBlockW.hash 1 = true
    ∧ mineAux 0 gBlockW 1 = some gBlockW
    ∧ mineAux 7 gBlockW 1 = some gBlockW
    ∧ 1 ≤ 1 ∧ mineAux 2 gBlockW 1 = some gBlockW :=
  ⟨by decide,
   mine_idempotent.1 gBlockW 1 0 (by decide),
   mine_idempotent.2.1 gBlockW gBlockW 1 0 7 (mine_idempotent.1 gBlockW 1 0 (by decide)),
   by decide,
   mine_idempotent.2.2 gBlockW gBlockW 1 1 0 2 (by decide)
     (mine_idempotent.1 gBlockW 1 0 (by decide))⟩
